import Mathlib

/-
Shallow embedding of msccjson (src/main.rs): a converter from an msbuild log
to compile_commands.json.  Paths are modelled as plain strings with the Unix
rules of the Rust std::path library (component parsing, file_name, parent, extension);
strings are Lean String, manipulated through their character lists so that
every definition reduces in the kernel.
-/

namespace Msccjson

mutual
/-- One entry of a source tree handed to the directory walker: a regular
file or a directory with its entries. -/
inductive FSEntry where
  | file (name : String)
  | dir (name : String) (entries : FSList)
deriving Repr

/-- The entry sequence of one directory, as read_dir delivers it. -/
inductive FSList where
  | nil
  | cons (e : FSEntry) (es : FSList)
deriving Repr
end

/-- ASCII lowering of one character, the ASCII fragment of the Rust function
char::to_lowercase (the inputs of this program are ASCII log lines). -/
def lowerChar (c : Char) : Char :=
  if 'A' ≤ c ∧ c ≤ 'Z' then Char.ofNat (c.toNat + 32) else c

/-- Models Rust str::to_lowercase on its ASCII fragment. -/
def to_lowercase (s : String) : String :=
  String.mk (s.data.map lowerChar)

/-- Does `pat` occur at the head of `hay`? -/
def leadsWith : List Char → List Char → Bool
  | [], _ => true
  | _ :: _, [] => false
  | p :: ps, h :: hs => p == h && leadsWith ps hs

/-- Does `pat` occur anywhere in `hay`?  Models str::contains for string
patterns (an empty pattern matches everywhere). -/
def occursIn (pat : List Char) : List Char → Bool
  | [] => pat.isEmpty
  | h :: hs => leadsWith pat (h :: hs) || occursIn pat hs

/-- Models Rust `hay.contains(pat)`. -/
def contains_str (hay pat : String) : Bool :=
  occursIn pat.data hay.data

/-- Split a character list on a separator character, keeping empty pieces
(the behaviour of str::split on a char pattern). -/
def split_on_char (c : Char) : List Char → List (List Char)
  | [] => [[]]
  | h :: t =>
    if h == c then [] :: split_on_char c t
    else
      match split_on_char c t with
      | [] => [[h]]
      | g :: gs => (h :: g) :: gs

/-- The pieces of a path string between '/' separators. -/
def splitOnSlash (s : String) : List String :=
  (split_on_char '/' s.data).map String.mk

/-- The pieces of a file name between '.' separators. -/
def splitOnDot (s : String) : List String :=
  (split_on_char '.' s.data).map String.mk

/-- The ASCII fragment of Rust char::is_whitespace. -/
def is_rust_whitespace (c : Char) : Bool :=
  c == ' ' || c == '\x09' || c == '\x0a' || c == '\x0b' || c == '\x0c' || c == '\x0d'

/-- Split on whitespace characters, keeping empty pieces. -/
def split_ws_aux : List Char → List (List Char)
  | [] => [[]]
  | h :: t =>
    if is_rust_whitespace h then [] :: split_ws_aux t
    else
      match split_ws_aux t with
      | [] => [[h]]
      | g :: gs => (h :: g) :: gs

/-- Models Rust str::split_whitespace: split on whitespace runs, dropping
empty pieces. -/
def split_whitespace (s : String) : List String :=
  ((split_ws_aux s.data).filter (· ≠ [])).map String.mk

/-- A parsed path component, as in std::path::Component (no Windows
prefixes: the Unix rules). -/
inductive PathComp where
  | rootDir
  | curDir
  | parentDir
  | normal (s : String)
deriving Repr, DecidableEq

/-- Does the path string start with the separator? -/
def starts_with_slash (s : String) : Bool :=
  match s.data with
  | '/' :: _ => true
  | _ => false

/-- Does the path start with a lone "." component (Rust keeps that one as
CurDir, dropping every later "." piece)? -/
def has_cur_dir_lead (s : String) : Bool :=
  match s.data with
  | ['.'] => true
  | '.' :: '/' :: _ => true
  | _ => false

/-- The component list of a path string: Rust Path::components on Unix.
Empty pieces and non-leading "." pieces are dropped. -/
def components (s : String) : List PathComp :=
  let parts := (splitOnSlash s).filter (fun p => p != "" && p != ".")
  let tail := parts.map (fun p => if p == ".." then PathComp.parentDir else PathComp.normal p)
  (if starts_with_slash s then [PathComp.rootDir]
   else if has_cur_dir_lead s then [PathComp.curDir]
   else []) ++ tail

/-- Models Rust Path::file_name: the last component when it is a normal
component, nothing otherwise. -/
def file_name (s : String) : Option String :=
  match (components s).getLast? with
  | some (PathComp.normal p) => some p
  | _ => none

/-- Text of one component, used to rebuild a parent path. -/
def comp_str : PathComp → String
  | PathComp.rootDir => "/"
  | PathComp.curDir => "."
  | PathComp.parentDir => ".."
  | PathComp.normal p => p

/-- Join pieces with the separator. -/
def join_slash : List String → String
  | [] => ""
  | [x] => x
  | x :: xs => x ++ "/" ++ join_slash xs

/-- Rebuild the path string of a component list (Components::as_path). -/
def render_comps : List PathComp → String
  | PathComp.rootDir :: rest => "/" ++ join_slash (rest.map comp_str)
  | comps => join_slash (comps.map comp_str)

/-- Models Rust Path::parent: drop the last component; nothing for the empty
path and for the root. -/
def parent (s : String) : Option String :=
  match (components s).getLast? with
  | none => none
  | some PathComp.rootDir => none
  | some _ => some (render_comps (components s).dropLast)

/-- Join pieces with a dot. -/
def join_dot : List String → String
  | [] => ""
  | [x] => x
  | x :: xs => x ++ "." ++ join_dot xs

/-- Models the std::path helper rsplit_file_at_dot: split a file name at its last dot
into (stem part, extension part). -/
def rsplit_file_at_dot (f : String) : Option String × Option String :=
  if f == ".." then (some f, none)
  else
    match splitOnDot f with
    | [_] => (none, some f)
    | parts =>
      let before := join_dot parts.dropLast
      let after := (parts.getLast?).getD ""
      if before == "" then (some f, none) else (some before, some after)

/-- Models Rust Path::extension: the part of the file name after its last
dot; present only when the stem part is also present.  A name ending in a
dot has the extension `some ""`. -/
def extension (s : String) : Option String :=
  match file_name s with
  | none => none
  | some f =>
    match rsplit_file_at_dot f with
    | (some _, some a) => some a
    | _ => none

/-- Models PathBuf::push for a bare entry name: append, inserting the
separator when needed (entry names coming from a directory walk are
relative and non-empty). -/
def path_join (dir name : String) : String :=
  if dir == "" then name
  else
    match dir.data.getLast? with
    | some '/' => dir ++ name
    | _ => dir ++ "/" ++ name

mutual
/-- One entry handled by find_all_files (src/main.rs:77): the full path of a file
is emitted, a directory is explored. -/
def find_one_entry : String → FSEntry → List String
  | p, FSEntry.file n => [path_join p n]
  | p, FSEntry.dir n sub => find_all_files (path_join p n) sub

/-- Models find_all_files (src/main.rs:52): walk the tree below the given
directory path and produce the full path of every regular file found.  The
source walks with an explicit stack; the recursion here visits the same
directories and produces the same collection of paths (only the visiting
order differs). -/
def find_all_files : String → FSList → List String
  | _, FSList.nil => []
  | p, FSList.cons e es => find_one_entry p e ++ find_all_files p es
end

/-- One Entry-API step of build_file_map (src/main.rs:103): a vacant entry
is inserted, an occupied entry is cleared to the empty path. -/
def insert_or_clear (m : String → Option String) (k v : String) : String → Option String :=
  fun name =>
    if name == k then
      match m k with
      | none => some v
      | some _ => some ""
    else m name

/-- Processing of one received path in build_file_map (src/main.rs:96):
paths without an extension are skipped; otherwise the file name is keyed to
the parent directory.  The two source unwraps are modelled with getD; the
guard makes the none case unreachable (proved in guards_make_unwraps_safe). -/
def build_file_map_step (m : String → Option String) (p : String) : String → Option String :=
  if (extension p).isSome then
    insert_or_clear m ((file_name p).getD "") ((parent p).getD "")
  else m

/-- Models build_file_map (src/main.rs:93): fold the received paths into a
map from file name to directory, the HashMap modelled as a function. -/
def build_file_map (paths : List String) : String → Option String :=
  paths.foldl build_file_map_step (fun _ => none)

/-- Models find_all_lines (src/main.rs:118) on lines already read: keep a
line when its lowercased text contains `s` (the configured executable name,
not lowercased by the source). -/
def find_all_lines (s : String) : List String → List String
  | [] => []
  | l :: ls =>
    if contains_str (to_lowercase l) s then l :: find_all_lines s ls
    else find_all_lines s ls

/-- Models reader.lines().map_while(Result::ok) in find_all_lines: the line
stream stops at the first read error, which is not reported anywhere. -/
def map_while_ok : List (Except String String) → List String
  | [] => []
  | Except.ok l :: rest => l :: map_while_ok rest
  | Except.error _ :: _ => []

/-- Models cleanup_line (src/main.rs:128): remove every double quote. -/
def cleanup_line (s : String) : String :=
  String.mk (s.data.filter (fun c => c != '\"'))

/-- Models tokenize_lines (src/main.rs:137) on one line. -/
def tokenize_line (s : String) : List String :=
  split_whitespace s

/-- The output record (src/main.rs:12); PathBuf fields modelled as strings. -/
structure CompileCommand where
  file : String
  directory : String
  arguments : List String
deriving Repr, DecidableEq

/-- What one loop iteration of create_compile_commands sends: a record on
the command channel or a message on the error channel (exactly one per
received token vector). -/
inductive SynthResult where
  | record (cc : CompileCommand)
  | diag (msg : String)
deriving Repr, DecidableEq

/-- Diagnostic of src/main.rs:159. -/
def msg_empty_tokens : String := "Token vector is empty!"

/-- Diagnostic of src/main.rs:168 (the Debug interpolation is approximated
with toString). -/
def msg_no_file_name (t : List String) : String :=
  "Expected file name as last token in " ++ toString t

/-- Diagnostic of src/main.rs:175. -/
def msg_no_extension (path : String) : String :=
  "Expected file extension in " ++ path

/-- Diagnostic of src/main.rs:188. -/
def msg_path_not_found (fname : String) : String :=
  "Path not found for " ++ fname

/-- Models one loop iteration of create_compile_commands (src/main.rs:149):
validate the token vector, resolve the directory from the parent of the last token or, when that is empty, from the map, and build the record.  The
parent unwrap is modelled with getD (safe: proved in
guards_make_unwraps_safe); the source assert! on the non-emptiness of the
file name is also discharged there. -/
def create_compile_command (map : String → Option String) (t : List String) : SynthResult :=
  match t.getLast? with
  | none => SynthResult.diag msg_empty_tokens
  | some path =>
    match file_name path with
    | none => SynthResult.diag (msg_no_file_name t)
    | some fname =>
      if (extension path).isNone then SynthResult.diag (msg_no_extension path)
      else
        let par := (parent path).getD ""
        if par == "" then
          match map fname with
          | some dir => SynthResult.record ⟨fname, dir, t⟩
          | none => SynthResult.diag (msg_path_not_found fname)
        else SynthResult.record ⟨fname, par, t⟩

/-- Models the receive loop of create_compile_commands over a whole token
stream. -/
def create_compile_commands (map : String → Option String) (ts : List (List String)) : List SynthResult :=
  ts.map (create_compile_command map)

/-- The records collected from the command channel in main
(src/main.rs:317); diagnostics went to the error channel instead. -/
def collect_records (rs : List SynthResult) : List CompileCommand :=
  rs.filterMap (fun r =>
    match r with
    | SynthResult.record cc => some cc
    | SynthResult.diag _ => none)

/-- The phase-2 pipeline of main (src/main.rs:265): filter the log lines,
strip quotes, tokenize, synthesize, and collect the records. -/
def run_pipeline (exe : String) (map : String → Option String) (lines : List String) : List CompileCommand :=
  collect_records (create_compile_commands map
    (((find_all_lines exe lines).map cleanup_line).map tokenize_line))

/-- Models the fallible setup and run of main (src/main.rs:205): opening the
input log (the question-mark operator turns a failure into an error return),
checking the source directory, opening the output, then running the pipeline
over the lines the reader actually delivers (map_while_ok). -/
def run_main (input_open : Except String (List (Except String String)))
    (source_is_dir : Bool) (output_open : Except String Unit)
    (exe : String) (map : String → Option String) :
    Except String (List CompileCommand) :=
  match input_open with
  | Except.error e => Except.error e
  | Except.ok rows =>
    if source_is_dir then
      match output_open with
      | Except.error e => Except.error e
      | Except.ok _ => Except.ok (run_pipeline exe map (map_while_ok rows))
    else Except.error "Provided path is not a directory"

/-- The received paths that build_file_map keys under `name`: those with a
present extension whose file name is `name`. -/
def relevant_paths (paths : List String) (name : String) : List String :=
  paths.filter (fun p => (extension p).isSome && ((file_name p).getD "" == name))

/-- The value the map holds for a name after an initial value and the
observations keyed to it: the first observation fills a vacant entry, any
further observation clears it to the empty path. -/
def combine_lookup : Option String → List String → Option String
  | v, [] => v
  | none, [p] => some ((parent p).getD "")
  | none, _ :: _ :: _ => some ""
  | some _, _ :: _ => some ""

/-- A source tree holding /src/a/util.cpp and /src/b/util.cpp: two files
sharing a name in distinct directories. -/
def tree_two_util : FSList :=
  FSList.cons (FSEntry.dir "a" (FSList.cons (FSEntry.file "util.cpp") FSList.nil))
    (FSList.cons (FSEntry.dir "b" (FSList.cons (FSEntry.file "util.cpp") FSList.nil)) FSList.nil)

/-- A source tree holding exactly one file, /src/app/main.cpp. -/
def tree_one_main : FSList :=
  FSList.cons (FSEntry.dir "app" (FSList.cons (FSEntry.file "main.cpp") FSList.nil)) FSList.nil

/-- A source tree holding exactly one file, m.cpp inside directory a. -/
def tree_a_m : FSList :=
  FSList.cons (FSEntry.dir "a" (FSList.cons (FSEntry.file "m.cpp") FSList.nil)) FSList.nil

/-! Helper lemmas about the path model. -/

/-- A normal component is one of the filtered slash-pieces: never empty,
never ".", never "..". -/
lemma normal_mem_components {s p : String} (h : PathComp.normal p ∈ components s) :
    p ≠ "" ∧ p ≠ "." ∧ p ≠ ".." := by
  unfold components at h
  rcases List.mem_append.mp h with h1 | h2
  · split at h1 <;> simp_all
  · obtain ⟨q, hq, hmap⟩ := List.mem_map.mp h2
    obtain ⟨hqmem, hqne⟩ := List.mem_filter.mp hq
    by_cases hdd : q = ".."
    · simp [hdd] at hmap
    · simp [hdd] at hmap
      subst hmap
      simp only [Bool.and_eq_true, bne_iff_ne, ne_eq] at hqne
      exact ⟨hqne.1, hqne.2, hdd⟩

/-- When the file name is present, the last component is that normal name. -/
lemma file_name_eq_some_iff {s f : String} :
    file_name s = some f ↔ (components s).getLast? = some (PathComp.normal f) := by
  unfold file_name
  cases hlast : (components s).getLast? with
  | none => simp
  | some c => cases c <;> simp

/-- When the file name is present the parent is present as well (the source
comment at src/main.rs:182: parent returns at least the empty path). -/
lemma parent_isSome_of_file_name {s f : String} (h : file_name s = some f) :
    (parent s).isSome := by
  have hlast := file_name_eq_some_iff.mp h
  unfold parent
  rw [hlast]
  rfl

/-- A present file name is never the empty string. -/
lemma file_name_ne_empty {s f : String} (h : file_name s = some f) : f ≠ "" := by
  have hlast := file_name_eq_some_iff.mp h
  exact (normal_mem_components (List.mem_of_getLast?_eq_some hlast)).1

/-- A present extension comes with a present file name. -/
lemma file_name_isSome_of_extension {s : String} (h : (extension s).isSome) :
    (file_name s).isSome := by
  unfold extension at h
  cases hfile : file_name s <;> simp [hfile] at h ⊢

/-- Claim C10: the partial operations guarded by earlier checks never
panic.  In build_file_map, a path with a present extension also has a
present file name and a present parent, so the two unwraps are safe; in
create_compile_commands, a present file name is non-empty (the assert
holds) and the parent unwrap is safe. -/
theorem guards_make_unwraps_safe (s f : String) :
    ((extension s).isSome → (file_name s).isSome ∧ (parent s).isSome) ∧
    (file_name s = some f → f ≠ "" ∧ (parent s).isSome) := by
  constructor
  · intro hx
    have hfn := file_name_isSome_of_extension hx
    obtain ⟨g, hg⟩ := Option.isSome_iff_exists.mp hfn
    exact ⟨hfn, parent_isSome_of_file_name hg⟩
  · intro hf
    exact ⟨file_name_ne_empty hf, parent_isSome_of_file_name hf⟩

/-- Witness for guards_make_unwraps_safe at the concrete path
"/src/app/main.cpp". -/
theorem guards_make_unwraps_safe_witness :
    (file_name "/src/app/main.cpp").isSome ∧ (parent "/src/app/main.cpp").isSome ∧
    ("main.cpp" : String) ≠ "" := by
  have h1 := (guards_make_unwraps_safe "/src/app/main.cpp" "main.cpp").1 (by decide)
  have h2 := (guards_make_unwraps_safe "/src/app/main.cpp" "main.cpp").2 (by decide)
  exact ⟨h1.1, h1.2, h2.1⟩

/-- Claim C6: when the last token carries a non-empty parent component, the
synthesizer never consults the directory map (the result is the same for
any two maps) and any record it emits uses that embedded directory
verbatim, with no check that it exists. -/
theorem embedded_directory_used_verbatim (map map2 : String → Option String)
    (t : List String) (path p : String)
    (hlast : t.getLast? = some path) (hpar : parent path = some p) (hp : p ≠ "") :
    create_compile_command map t = create_compile_command map2 t ∧
    ∀ cc, create_compile_command map t = SynthResult.record cc → cc.directory = p := by
  have hgetd : (parent path).getD "" = p := by rw [hpar]; rfl
  unfold create_compile_command
  rw [hlast]
  cases hfn : file_name path with
  | none => simp [hfn]
  | some f =>
    by_cases hext : extension path = none
    · simp [hfn, hext]
    · simp [hfn, hext, hgetd, hp]

/-- Witness for embedded_directory_used_verbatim: the token
"/wrong/dir/a.cpp" fixes the directory "/wrong/dir" under two different
maps. -/
theorem embedded_directory_used_verbatim_witness :
    create_compile_command (fun _ => none) ["cl.exe", "/wrong/dir/a.cpp"] =
      create_compile_command (fun _ => some "/elsewhere") ["cl.exe", "/wrong/dir/a.cpp"] :=
  (embedded_directory_used_verbatim (fun _ => none) (fun _ => some "/elsewhere")
    ["cl.exe", "/wrong/dir/a.cpp"] "/wrong/dir/a.cpp" "/wrong/dir"
    (by decide) (by decide) (by decide)).1

/-- Claim C8 (amended): per received token vector the synthesizer produces
exactly one of record or diagnostic, and validates fail-fast: empty vector,
then absent file name in the last token, then absent extension — where a
name ending in a dot has the extension present (the empty string) and so
passes the third check. -/
theorem create_compile_command_validation (map : String → Option String) (t : List String) :
    ((∃ cc, create_compile_command map t = SynthResult.record cc) ∨
      (∃ m, create_compile_command map t = SynthResult.diag m)) ∧
    (t = [] → create_compile_command map t = SynthResult.diag msg_empty_tokens) ∧
    (∀ path, t.getLast? = some path → file_name path = none →
      create_compile_command map t = SynthResult.diag (msg_no_file_name t)) ∧
    (∀ path f, t.getLast? = some path → file_name path = some f → extension path = none →
      create_compile_command map t = SynthResult.diag (msg_no_extension path)) ∧
    (∀ path f e, t.getLast? = some path → file_name path = some f → extension path = some e →
      (∃ cc, create_compile_command map t = SynthResult.record cc ∧
        cc.file = f ∧ cc.arguments = t) ∨
      create_compile_command map t = SynthResult.diag (msg_path_not_found f)) := by
  refine ⟨?_, ?_, ?_, ?_, ?_⟩
  · cases hl : t.getLast? with
    | none => exact Or.inr ⟨msg_empty_tokens, by simp [create_compile_command, hl]⟩
    | some path =>
      cases hfn : file_name path with
      | none => exact Or.inr ⟨msg_no_file_name t, by simp [create_compile_command, hl, hfn]⟩
      | some f =>
        by_cases hext : extension path = none
        · exact Or.inr ⟨msg_no_extension path, by simp [create_compile_command, hl, hfn, hext]⟩
        · by_cases hpar : (parent path).getD "" = ""
          · cases hm : map f with
            | none =>
              exact Or.inr ⟨msg_path_not_found f,
                by simp [create_compile_command, hl, hfn, hext, hpar, hm]⟩
            | some dir =>
              exact Or.inl ⟨⟨f, dir, t⟩,
                by simp [create_compile_command, hl, hfn, hext, hpar, hm]⟩
          · exact Or.inl ⟨⟨f, (parent path).getD "", t⟩,
              by simp [create_compile_command, hl, hfn, hext, hpar]⟩
  · intro ht
    subst ht
    rfl
  · intro path hpath hfn
    simp [create_compile_command, hpath, hfn]
  · intro path f hpath hfn hext
    simp [create_compile_command, hpath, hfn, hext]
  · intro path f e hpath hfn hext
    by_cases hpar : (parent path).getD "" = ""
    · cases hm : map f with
      | none =>
        exact Or.inr (by simp [create_compile_command, hpath, hfn, hext, hpar, hm])
      | some dir =>
        exact Or.inl ⟨⟨f, dir, t⟩,
          by simp [create_compile_command, hpath, hfn, hext, hpar, hm], rfl, rfl⟩
    · exact Or.inl ⟨⟨f, (parent path).getD "", t⟩,
        by simp [create_compile_command, hpath, hfn, hext, hpar], rfl, rfl⟩

/-- Witness for create_compile_command_validation: the empty token vector
yields the empty-vector diagnostic, and a valid vector yields a record. -/
theorem create_compile_command_validation_witness :
    create_compile_command (fun _ => none) [] = SynthResult.diag msg_empty_tokens :=
  (create_compile_command_validation (fun _ => none) []).2.1 rfl

/-- Claim C8 counterexample: the last token "foo." has an empty extension,
yet the synthesizer does not emit the no-extension diagnostic — the empty
extension is present under Path::extension, the check passes and a record
is emitted. -/
theorem trailing_dot_empty_extension_passes_validation :
    extension "foo." = some "" ∧
    create_compile_command (fun n => if n == "foo." then some "/d" else none) ["foo."] =
      SynthResult.record ⟨"foo.", "/d", ["foo."]⟩ :=
  ⟨by decide, by decide⟩

/-! Characterization of build_file_map. -/

lemma combine_lookup_nil (v : Option String) : combine_lookup v [] = v := by
  cases v <;> rfl

lemma combine_lookup_some (v : String) (l : List String) (hl : l ≠ []) :
    combine_lookup (some v) l = some "" := by
  cases l with
  | nil => exact absurd rfl hl
  | cons a l => rfl

lemma foldl_build_step (l : List String) :
    ∀ (m : String → Option String) (name : String),
      (l.foldl build_file_map_step m) name = combine_lookup (m name) (relevant_paths l name) := by
  induction l with
  | nil =>
    intro m name
    simp [relevant_paths, combine_lookup_nil]
  | cons p l ih =>
    intro m name
    rw [List.foldl_cons, ih]
    by_cases hsel : ((extension p).isSome && ((file_name p).getD "" == name)) = true
    · have hrel : relevant_paths (p :: l) name = p :: relevant_paths l name := by
        simp only [relevant_paths, List.filter_cons, hsel, if_true]
      obtain ⟨hx, hn⟩ := Bool.and_eq_true_iff.mp hsel
      have hkey : (file_name p).getD "" = name := by simpa using hn
      have hstep : build_file_map_step m p name =
          match m name with
          | none => some ((parent p).getD "")
          | some _ => some "" := by
        simp only [build_file_map_step, hx, if_true, insert_or_clear, hkey]
        simp
      rw [hrel, hstep]
      cases hm : m name with
      | none =>
        cases hrl : relevant_paths l name with
        | nil => rfl
        | cons a rl =>
          rw [combine_lookup_some _ _ (List.cons_ne_nil a rl)]
          rfl
      | some v =>
        rw [combine_lookup_some v _ (List.cons_ne_nil p _)]
        cases hrl : relevant_paths l name with
        | nil => rfl
        | cons a rl => exact combine_lookup_some "" _ (List.cons_ne_nil a rl)
    · have hrel : relevant_paths (p :: l) name = relevant_paths l name := by
        simp [relevant_paths, List.filter_cons, hsel]
      have hstep : build_file_map_step m p name = m name := by
        unfold build_file_map_step insert_or_clear
        by_cases hx : (extension p).isSome = true
        · have hk : ¬((file_name p).getD "" = name) := by
            intro hk
            exact hsel (by simp [hx, hk])
          simp only [hx, if_true]
          have : (name == (file_name p).getD "") = false := by
            simp [beq_eq_false_iff_ne]
            exact fun hh => hk hh.symm
          simp [this]
        · simp [hx]
      rw [hrel, hstep]

/-- The final content of the map built by build_file_map, per name: absent
when the name was never observed, the parent directory of the single
observation, or the empty path once two or more observations collided. -/
lemma build_file_map_lookup (paths : List String) (name : String) :
    build_file_map paths name =
      match relevant_paths paths name with
      | [] => none
      | [p] => some ((parent p).getD "")
      | _ => some "" := by
  rw [build_file_map, foldl_build_step]
  cases relevant_paths paths name with
  | nil => rfl
  | cons a l => cases l <;> rfl

/-- A member of relevant_paths is a received path with a present extension
keyed under the name. -/
lemma mem_relevant {paths : List String} {name p : String}
    (h : p ∈ relevant_paths paths name) :
    p ∈ paths ∧ (extension p).isSome = true ∧ (file_name p).getD "" = name := by
  obtain ⟨hmem, hcond⟩ := List.mem_filter.mp h
  simp only [Bool.and_eq_true, beq_iff_eq] at hcond
  exact ⟨hmem, hcond.1, hcond.2⟩

lemma build_lookup_ne_none_iff (paths : List String) (name : String) :
    build_file_map paths name ≠ none ↔ relevant_paths paths name ≠ [] := by
  rw [build_file_map_lookup]
  cases relevant_paths paths name with
  | nil => simp
  | cons a rl => cases rl <;> simp

lemma relevant_singleton_of_mem {paths : List String} {name p : String}
    (hp : p ∈ relevant_paths paths name)
    (hlen : (relevant_paths paths name).length = 1) :
    relevant_paths paths name = [p] := by
  cases hrl : relevant_paths paths name with
  | nil => rw [hrl] at hp; cases hp
  | cons a rl =>
    rw [hrl] at hlen hp
    cases rl with
    | cons b rl2 => simp at hlen
    | nil => rw [List.mem_singleton.mp hp]

/-- Claim C4 (amended): a file name maps to a non-empty directory exactly
when it was observed exactly once (with a present extension); a second
observation clears the entry to the empty path — the ambiguity marker is
the empty string itself, distinct from every stored directory only because
the directories the walk stores are non-empty. -/
theorem build_file_map_collision_semantics (paths : List String) (name d : String)
    (hpar : ∀ p ∈ paths, (extension p).isSome = true → (parent p).getD "" ≠ "") :
    ((build_file_map paths name = some d ∧ d ≠ "") ↔
      ∃ p, relevant_paths paths name = [p] ∧ d = (parent p).getD "") ∧
    (2 ≤ (relevant_paths paths name).length → build_file_map paths name = some "") := by
  have hchar := build_file_map_lookup paths name
  cases hrl : relevant_paths paths name with
  | nil =>
    rw [hrl] at hchar
    refine ⟨?_, ?_⟩
    · simp [hchar]
    · intro hlen; simp at hlen
  | cons a rl =>
    cases rl with
    | nil =>
      rw [hrl] at hchar
      refine ⟨⟨?_, ?_⟩, ?_⟩
      · rintro ⟨heq, hne⟩
        rw [hchar] at heq
        injection heq with heq
        exact ⟨a, rfl, heq.symm⟩
      · rintro ⟨p, hp, hd⟩
        have hap : a = p := by injection hp
        have ham : a ∈ relevant_paths paths name := by
          rw [hrl]; exact List.mem_singleton_self a
        obtain ⟨hmem, hx, _⟩ := mem_relevant ham
        rw [← hap] at hd
        rw [hchar, hd]
        exact ⟨rfl, hpar a hmem hx⟩
      · intro hlen; simp at hlen
    | cons b rl2 =>
      rw [hrl] at hchar
      refine ⟨⟨?_, ?_⟩, fun _ => hchar⟩
      · rintro ⟨heq, hne⟩
        rw [hchar] at heq
        injection heq with heq
        exact absurd heq.symm hne
      · rintro ⟨p, hp, _⟩
        cases hp

/-- Witness for build_file_map_collision_semantics: one observation of
util.cpp from /src/a maps it to that directory. -/
theorem build_file_map_collision_semantics_witness :
    build_file_map ["/src/a/util.cpp"] "util.cpp" = some "/src/a" ∧
    ("/src/a" : String) ≠ "" :=
  (build_file_map_collision_semantics ["/src/a/util.cpp"] "util.cpp" "/src/a"
    (by decide)).1.mpr ⟨"/src/a/util.cpp", by decide, by decide⟩

/-- Claim C4 counterexample: after indexing the tree with /src/a/util.cpp
and /src/b/util.cpp the colliding name is mapped to the empty string — the
ambiguity marker is not distinct from the empty string. -/
theorem collision_marker_is_empty_string :
    build_file_map (find_all_files "/src" tree_two_util) "util.cpp" = some "" := by
  decide

/-- Claim C9 (amended): the index built over a walk of the tree covers
exactly the files whose extension is present in the sense of
Path::extension — which includes a name ending in a bare dot, whose
extension is the empty string — and in a tree without duplicate file names
every indexed file is resolvable by its name alone. -/
theorem index_coverage_and_resolution (root : String) (entries : FSList) (name : String) :
    (build_file_map (find_all_files root entries) name ≠ none ↔
      ∃ p ∈ find_all_files root entries,
        (extension p).isSome = true ∧ (file_name p).getD "" = name) ∧
    (∀ p ∈ find_all_files root entries,
      (extension p).isSome = true → (file_name p).getD "" = name →
      (relevant_paths (find_all_files root entries) name).length = 1 →
      build_file_map (find_all_files root entries) name = some ((parent p).getD "")) := by
  constructor
  · rw [build_lookup_ne_none_iff]
    constructor
    · intro hne
      obtain ⟨p, hp⟩ := List.exists_mem_of_ne_nil _ hne
      obtain ⟨hm, hx, hn⟩ := mem_relevant hp
      exact ⟨p, hm, hx, hn⟩
    · rintro ⟨p, hm, hx, hn⟩ hnil
      have hp : p ∈ relevant_paths (find_all_files root entries) name :=
        List.mem_filter.mpr ⟨hm, by simp [hx, hn]⟩
      rw [hnil] at hp
      cases hp
  · intro p hm hx hn hlen
    have hp : p ∈ relevant_paths (find_all_files root entries) name :=
      List.mem_filter.mpr ⟨hm, by simp [hx, hn]⟩
    rw [build_file_map_lookup, relevant_singleton_of_mem hp hlen]

/-- Witness for index_coverage_and_resolution: the single file /r/a/m.cpp
is resolvable from the index by its bare name. -/
theorem index_coverage_and_resolution_witness :
    build_file_map (find_all_files "/r" tree_a_m) "m.cpp" = some "/r/a" :=
  (index_coverage_and_resolution "/r" tree_a_m "m.cpp").2 "/r/a/m.cpp"
    (by decide) (by decide) (by decide) (by decide)

/-- Claim C9 counterexample: the file /r/foo. has an empty extension, yet
it is indexed (extension() is present, so the filter keeps it), against the
claim that a file whose extension is empty is not indexed. -/
theorem trailing_dot_file_is_indexed :
    extension "/r/foo." = some "" ∧
    build_file_map (find_all_files "/r" (FSList.cons (FSEntry.file "foo.") FSList.nil))
      "foo." = some "/r" :=
  ⟨by decide, by decide⟩

/-- Claim C3 (amended): a line is forwarded exactly when its lowercased
text contains the configured executable name verbatim as a substring; the
configured name itself is not lowercased. -/
theorem find_all_lines_filter_spec (s : String) (lines : List String) :
    find_all_lines s lines = lines.filter (fun l => contains_str (to_lowercase l) s) ∧
    ∀ l, l ∈ find_all_lines s lines ↔
      l ∈ lines ∧ contains_str (to_lowercase l) s = true := by
  have hfil : find_all_lines s lines =
      lines.filter (fun l => contains_str (to_lowercase l) s) := by
    induction lines with
    | nil => rfl
    | cons a ls ih =>
      by_cases h : contains_str (to_lowercase a) s = true
      · simp [find_all_lines, h, List.filter_cons, ih]
      · simp [find_all_lines, h, List.filter_cons, ih]
  refine ⟨hfil, ?_⟩
  intro l
  rw [hfil, List.mem_filter]

/-- Witness for find_all_lines_filter_spec on a concrete two-line log. -/
theorem find_all_lines_filter_spec_witness :
    find_all_lines "cl.exe" ["cl.exe /c a.cpp", "link /out b.obj"] = ["cl.exe /c a.cpp"] := by
  rw [(find_all_lines_filter_spec "cl.exe" ["cl.exe /c a.cpp", "link /out b.obj"]).1]
  decide

/-- Claim C3 counterexample: with the executable name configured as
"CL.EXE", the line "CL.EXE /c a.cpp" contains the name under
case-insensitive comparison of both sides, yet the filter drops it: only
the line is lowercased, never the configured name. -/
theorem uppercase_executable_never_matches :
    contains_str (to_lowercase "CL.EXE /c a.cpp") (to_lowercase "CL.EXE") = true ∧
    find_all_lines "CL.EXE" ["CL.EXE /c a.cpp"] = [] :=
  ⟨by decide, by decide⟩

/-! Behaviour of the line reader in main. -/

lemma map_while_ok_of_oks (pre : List String) :
    map_while_ok (pre.map Except.ok) = pre := by
  induction pre with
  | nil => rfl
  | cons a l ih => simp [map_while_ok, ih]

lemma map_while_ok_stops_at_error (pre : List String) (err : String)
    (post : List (Except String String)) :
    map_while_ok (pre.map Except.ok ++ Except.error err :: post) = pre := by
  induction pre with
  | nil => rfl
  | cons a l ih => simp [map_while_ok, ih]

/-- Claim C5 (amended): a failure to open the input log aborts the whole
run with an error before any pipeline work; a failure while reading the log
mid-stream is silently absorbed — the line iteration stops at the first
read error and the run continues exactly as if the log had ended there. -/
theorem open_failure_aborts_read_failure_truncates (e : String) (d : Bool)
    (o : Except String Unit) (exe : String) (map : String → Option String)
    (pre : List String) (err : String) (post : List (Except String String)) :
    run_main (Except.error e) d o exe map = Except.error e ∧
    run_main (Except.ok (pre.map Except.ok ++ Except.error err :: post)) d o exe map =
      run_main (Except.ok (pre.map Except.ok)) d o exe map := by
  refine ⟨rfl, ?_⟩
  simp [run_main, map_while_ok_stops_at_error, map_while_ok_of_oks]

/-- Claim C5 counterexample: a read error in the middle of the log does not
abort the run — the run succeeds, the line before the error is processed
and the line after it is silently lost. -/
theorem mid_read_error_absorbed_run_succeeds :
    run_main
      (Except.ok [Except.ok "cl.exe a.cpp", Except.error "read failed",
        Except.ok "cl.exe b.cpp"])
      true (Except.ok ()) "cl.exe" (build_file_map ["/s/a/a.cpp", "/s/b/b.cpp"]) =
    Except.ok [⟨"a.cpp", "/s/a", ["cl.exe", "a.cpp"]⟩] := by
  rfl

/-- Claim C1 (code bug): with util.cpp observed in the two directories
/src/a and /src/b, the index holds the cleared (empty) entry, and the
synthesizer accepts it from the lookup: the line is assigned the empty
directory in an emitted record — no diagnostic, not the rejection the claim
and the spec describe. -/
theorem ambiguous_fallback_emits_empty_directory_record :
    create_compile_command (build_file_map (find_all_files "/src" tree_two_util))
      ["cl.exe", "util.cpp"] =
    SynthResult.record ⟨"util.cpp", "", ["cl.exe", "util.cpp"]⟩ := by
  decide

/-- Claim C2 (code bug): an emitted record can carry an empty directory:
the colliding name m.cpp resolves through the map to the cleared empty
entry, which is used as the directory field of the record. -/
theorem emitted_record_directory_empty :
    create_compile_command (build_file_map ["/x/m.cpp", "/y/m.cpp"])
      ["cl.exe", "/c", "m.cpp"] =
    SynthResult.record ⟨"m.cpp", "", ["cl.exe", "/c", "m.cpp"]⟩ := by
  decide

/-- Claim C7: the round trip — the log line "cl.exe /c /Ox main.cpp" with
no embedded directory, over an indexed tree holding exactly one main.cpp
under /src/app, produces exactly the expected record. -/
theorem round_trip_single_main_cpp :
    run_pipeline "cl.exe" (build_file_map (find_all_files "/src" tree_one_main))
      ["cl.exe /c /Ox main.cpp"] =
    [⟨"main.cpp", "/src/app", ["cl.exe", "/c", "/Ox", "main.cpp"]⟩] := by
  decide

end Msccjson
